import Mathlib

/-
  Verification of anki/media.py (media support module).

  The module's text-scanning core is driven by two regular expressions
  (media.py lines 16-17):
    regexps = ("(?i)(\[sound:([^]]+)\])",
               "(?i)(<img[^>]+src=[\"']?([^\"'>]+)[\"']?[^>]?>)")
  They are embedded below as explicit backtracking matchers over lists of
  characters, with the same leftmost / greedy / backtracking semantics.
  All scanning functions are fuel-based structural recursions so that they
  evaluate inside the kernel.
-/

set_option maxRecDepth 4000

namespace Anki

/-- Lowercase an ASCII letter, leave everything else unchanged; this models
the effect of the case-insensitive flag on ASCII text. -/
def ciChar (c : Char) : Char :=
  if 65 ≤ c.toNat ∧ c.toNat ≤ 90 then Char.ofNat (c.toNat + 32) else c

/-- The single-quote character (written via its code point). -/
def squote : Char := Char.ofNat 39

/-- Matcher for the audio rule at the start of a string: literal
case-insensitive prefix, one or more characters other than the closing
bracket, then the closing bracket.  Returns the match length and the
captured group. -/
def soundRun (s : List Char) : Option (Nat × List Char) :=
  if (s.take 7).map ciChar = "[sound:".data then
    let body := (s.drop 7).takeWhile (fun c => ¬ (c = ']'))
    if body.length = 0 then none
    else if (s.drop (7 + body.length)).take 1 = [']'] then
      some (7 + body.length + 1, body)
    else none
  else none

/-- Tail of the image rule: optional non-gt character, then the gt sign.
Returns the number of consumed characters. -/
def gapGt : List Char → Option Nat
  | [] => none
  | d :: w => if d = '>' then some 1 else if w.take 1 = ['>'] then some 2 else none

/-- Closing-quote part of the image rule: optional quote, optional
non-gt character, then the gt sign. -/
def afterBody : List Char → Option Nat
  | [] => none
  | c :: w =>
    if c = '"' ∨ c = squote then
      match gapGt w with
      | some m => some (1 + m)
      | none => gapGt (c :: w)
    else gapGt (c :: w)

/-- Greedy backtracking over the length of the captured src group of the
image rule: try group length g+1 first, retreat on failure. -/
def bodyLoop (v : List Char) : Nat → Option (Nat × List Char)
  | 0 => none
  | g+1 =>
    match afterBody (v.drop (g+1)) with
    | some m => some (g + 1 + m, v.take (g+1))
    | none => bodyLoop v g

/-- Captured group of the image rule: one or more characters that are not a
quote and not a gt sign (greedy), followed by the rule's tail. -/
def quoteBody (v : List Char) : Option (Nat × List Char) :=
  bodyLoop v (v.takeWhile (fun c => ¬ (c = '"' ∨ c = squote ∨ c = '>'))).length

/-- Part of the image rule after the src= literal: optional opening quote
(greedy, with fallback), then the captured group and the tail. -/
def afterSrc : List Char → Option (Nat × List Char)
  | [] => none
  | c :: u =>
    if c = '"' ∨ c = squote then
      match quoteBody u with
      | some (m, g) => some (1 + m, g)
      | none => quoteBody (c :: u)
    else quoteBody (c :: u)

/-- Greedy backtracking over the run of non-gt characters between the img
literal and the src= literal: try run length k+1 first, retreat on
failure. -/
def imgLoop (t : List Char) : Nat → Option (Nat × List Char)
  | 0 => none
  | k+1 =>
    if ((t.drop (k+1)).take 4).map ciChar = "src=".data then
      match afterSrc (t.drop (k+1+4)) with
      | some (m, g) => some (k+1+4+m, g)
      | none => imgLoop t k
    else imgLoop t k

/-- Matcher for the image rule at the start of a string. -/
def imgRun (s : List Char) : Option (Nat × List Char) :=
  if (s.take 4).map ciChar = "<img".data then
    match imgLoop (s.drop 4) ((s.drop 4).takeWhile (fun c => ¬ (c = '>'))).length with
    | some (m, g) => some (4 + m, g)
    | none => none
  else none

/-- Leftmost match of a matcher in a string: returns the start index, the
match length and the captured group. -/
def findIn (m : List Char → Option (Nat × List Char)) :
    List Char → Option (Nat × Nat × List Char)
  | [] => none
  | c :: cs =>
    match m (c :: cs) with
    | some (n, g) => some (0, n, g)
    | none =>
      match findIn m cs with
      | some (i, n, g) => some (i + 1, n, g)
      | none => none

/-- Fueled variant of re.findall: collect the captured groups of all
non-overlapping matches from left to right. -/
def findallF (m : List Char → Option (Nat × List Char)) :
    Nat → List Char → List (List Char)
  | 0, _ => []
  | fuel+1, s =>
    match findIn m s with
    | none => []
    | some (i, n, g) => g :: findallF m fuel (s.drop (i + n))

/-- Fueled variant of re.sub with the empty replacement: delete all
non-overlapping matches from left to right. -/
def subF (m : List Char → Option (Nat × List Char)) :
    Nat → List Char → List Char
  | 0, s => s
  | fuel+1, s =>
    match findIn m s with
    | none => s
    | some (i, n, _) => s.take i ++ subF m fuel (s.drop (i + n))

/-- re.findall for one pattern (the string's length is always enough fuel,
because every match consumes at least one character). -/
def findallL (m : List Char → Option (Nat × List Char)) (s : List Char) :
    List (List Char) :=
  findallF m s.length s

/-- re.sub with empty replacement for one pattern. -/
def subL (m : List Char → Option (Nat × List Char)) (s : List Char) : List Char :=
  subF m s.length s

/-- mediaFiles (media.py lines 120-125): captured groups of the audio rule,
then captured groups of the image rule, each left to right. -/
def mediaFiles (s : String) : List String :=
  ((findallL soundRun s.data) ++ (findallL imgRun s.data)).map (fun l => String.mk l)

/-- stripMedia (media.py lines 127-130): delete all audio-rule matches,
then all image-rule matches. -/
def stripMedia (s : String) : String :=
  String.mk (subL imgRun (subL soundRun s.data))

/-
  uniquePath (media.py lines 69-86) and its helpers: decimal rendering of
  the counter (the %d format), the trailing-counter pattern, splitext,
  sanitization, and the fueled search loop.
-/

/-- Decimal digit character for a value below ten. -/
def digitChar (n : Nat) : Char :=
  if n = 0 then '0' else if n = 1 then '1' else if n = 2 then '2'
  else if n = 3 then '3' else if n = 4 then '4' else if n = 5 then '5'
  else if n = 6 then '6' else if n = 7 then '7' else if n = 8 then '8' else '9'

/-- Fueled decimal rendering of a natural number (most significant digit
first); models the %d format. -/
def natToStrF : Nat → Nat → List Char
  | 0, _ => []
  | fuel+1, n =>
    if n < 10 then [digitChar n]
    else natToStrF fuel (n / 10) ++ [digitChar (n % 10)]

/-- Decimal rendering of a natural number. -/
def natToStr (n : Nat) : List Char := natToStrF (n + 1) n

/-- Decimal digit test. -/
def isDigitB (c : Char) : Bool := 48 ≤ c.toNat ∧ c.toNat ≤ 57

/-- Value of a decimal digit character. -/
def digitVal (c : Char) : Nat := c.toNat - 48

/-- Value of a most-significant-first digit string (accepts leading
zeros, as int() does). -/
def digitsToNat (ds : List Char) : Nat := ds.foldl (fun a c => a * 10 + digitVal c) 0

/-- The parenthesized counter suffix: a blank, an opening parenthesis, the
decimal digits, a closing parenthesis. -/
def counterStr (n : Nat) : List Char := ' ' :: '(' :: (natToStr n ++ [')'])

/-- Sanitization step of uniquePath: remove the bracket, angle-bracket,
colon, slash and backslash characters. -/
def sanitize (base : List Char) : List Char :=
  base.filter (fun c =>
    ¬ (c = ']' ∨ c = '[' ∨ c = '<' ∨ c = '>' ∨ c = ':' ∨ c = '/' ∨ c = '\\'))

/-- Index of the last dot of a string, if any. -/
def lastDot : List Char → Option Nat
  | [] => none
  | c :: cs =>
    match lastDot cs with
    | some k => some (k + 1)
    | none => if c = '.' then some 0 else none

/-- os.path.splitext on a name without separators: split at the last dot,
unless every character before that dot is itself a dot. -/
def splitext (p : List Char) : List Char × List Char :=
  match lastDot p with
  | none => (p, [])
  | some i =>
    if (p.take i).all (fun c => c = '.') then (p, [])
    else (p.take i, p.drop i)

/-- Parse a trailing counter suffix from a stem: succeeds exactly when the
stem ends with a blank, an opening parenthesis, one or more digits and a
closing parenthesis, returning the part before the suffix and the digits'
value.  This models the trailing-counter search pattern of uniquePath. -/
def splitCounter (root : List Char) : Option (List Char × Nat) :=
  match root.reverse with
  | [] => none
  | c :: rest =>
    if c = ')' then
      let ds := rest.takeWhile isDigitB
      if ds.length = 0 then none
      else
        match rest.drop ds.length with
        | '(' :: ' ' :: stemRev => some (stemRev.reverse, digitsToNat ds.reverse)
        | _ => none
    else none

/-- One step of uniquePath's loop body on the stem: append a counter of one
if there is no trailing counter, otherwise increment the trailing
counter. -/
def repl (root : List Char) : List Char :=
  match splitCounter root with
  | none => root ++ counterStr 1
  | some (stem, n) => stem ++ counterStr (n + 1)

/-- Iterate the stem-rewriting step. -/
def iterRepl : Nat → List Char → List Char
  | 0, r => r
  | k+1, r => iterRepl k (repl r)

/-- os.path.join for a directory and a separator-free name. -/
def joinPath (dir : String) (name : List Char) : String :=
  String.mk (dir.data ++ '/' :: name)

/-- Fueled search loop of uniquePath: candidate paths are built from the
current stem plus the extension; an occupied candidate sends the stem
through the rewriting step. -/
def uniquePathF (taken : String → Bool) (dir : String) (ext : List Char) :
    List Char → Nat → Option String
  | _, 0 => none
  | root, fuel+1 =>
    if taken (joinPath dir (root ++ ext)) then
      uniquePathF taken dir ext (repl root) fuel
    else some (joinPath dir (root ++ ext))

/-- uniquePath (media.py lines 69-86): sanitize the base name, split off
the extension and run the search loop. -/
def uniquePath (taken : String → Bool) (dir base : String) (fuel : Nat) :
    Option String :=
  uniquePathF taken dir (splitext (sanitize base.data)).2
    (splitext (sanitize base.data)).1 fuel

/-- Membership-in-a-finite-directory predicate used to instantiate the
os.path.exists check. -/
def tk (L : List String) : String → Bool := fun p => decide (p ∈ L)

/-
  Filesystem and deck state.  The media directory and the process's current
  working directory are each a finite association list from name to node;
  the association order models the (unspecified) os.listdir order.  A
  regular file carries a readable flag (open can raise for an existing
  file) and its byte content.
-/

/-- A directory entry: a regular file (readable or not) or a
subdirectory. -/
inductive FSNode where
  | file (readable : Bool) (content : List Nat)
  | dir
deriving DecidableEq

/-- A directory state. -/
abbrev FS := List (String × FSNode)

/-- Node stored under a name, if any. -/
def lookupFS (fs : FS) (name : String) : Option FSNode :=
  (fs.find? (fun e => e.1 = name)).map (fun e => e.2)

/-- os.path.exists: a file or a directory is present under the name. -/
def fsExists (fs : FS) (name : String) : Bool := (lookupFS fs name).isSome

/-- os.path.isfile. -/
def isFileB (fs : FS) (name : String) : Bool :=
  match lookupFS fs name with
  | some (FSNode.file _ _) => true
  | _ => false

/-- open + read: succeeds exactly on a readable regular file.  A missing
name, a directory or an unreadable file raise, which callers model as
none. -/
def readFileFS (fs : FS) (name : String) : Option (List Nat) :=
  match lookupFS fs name with
  | some (FSNode.file true c) => some c
  | _ => none

/-- open(name, "wb").write: create or truncate a regular file. -/
def writeFileFS (fs : FS) (name : String) (content : List Nat) : FS :=
  if fs.any (fun e => e.1 = name) then
    fs.map (fun e => if e.1 = name then (name, FSNode.file true content) else e)
  else fs ++ [(name, FSNode.file true content)]

/-- Modelled from the spec: the hashing utility of anki.utils (checksum,
not part of src/) is a deterministic digest of a byte sequence, used as a
content-addressing key; it never returns the empty string, which is
reserved for "file absent". -/
def checksum (data : List Nat) : String :=
  String.mk ('#' :: data.foldr (fun b acc => natToStr b ++ ',' :: acc) [])

/-- One catalog row of the media table (media.py lines 22-36): size is
reused as the reference count, created as the last-modification time,
originalPath as the content hash. -/
structure MediaRow where
  id : Nat
  filename : String
  size : Int
  created : Nat
  originalPath : String
  description : String
deriving DecidableEq

/-- The deck state visible to this module: the media and mediaDeleted
tables, the cards' question/answer texts, the media directory, the
process's current working directory, the id generator state, and the
mediaURL deck variable. -/
structure Deck where
  media : List MediaRow
  mediaDeleted : List (Nat × Nat)
  cards : List (String × String)
  mfs : FS
  cwd : FS
  nextId : Nat
  mediaURL : Option String
deriving DecidableEq

/-- os.path.basename: the part after the last slash. -/
def basename (p : String) : String :=
  String.mk ((p.data.reverse.takeWhile (fun c => ¬ (c = '/'))).reverse)

/-- The media directory path returned by deck.mediaDir. -/
def MDIR : String := "media"

/-- View of an Except value as an Option (ok versus raised). -/
def okView {α : Type} (e : Except Unit α) : Option α :=
  match e with
  | Except.ok a => some a
  | Except.error _ => none

/-- Copy branch of copyToMedia (media.py lines 51-67): allocate a unique
name in the media directory from the source's base name, copy the bytes
there, and return the base name of the new path.  The loop fuel, one more
than the number of directory entries, is always enough (see the
termination theorem below). -/
def copyToMediaCopy (deck : Deck) (path : String) (bytes : List Nat) :
    Except Unit (String × Deck) :=
  match uniquePath (tk (deck.mfs.map (fun e => joinPath MDIR e.1.data)))
      MDIR (basename path) (deck.mfs.length + 1) with
  | none => Except.error ()
  | some newpath =>
    Except.ok (basename newpath,
      { deck with mfs := writeFileFS deck.mfs (basename newpath) bytes })

/-- copyToMedia (media.py lines 51-67): read the source, look the content
hash up in the catalog (a row with an empty filename is falsy, like a None
result), and either return the catalog row's base name without copying, or
copy under a fresh unique name.  The catalog itself is never modified. -/
def copyToMedia (deck : Deck) (path : String) : Except Unit (String × Deck) :=
  match readFileFS deck.cwd path with
  | none => Except.error ()
  | some bytes =>
    match (deck.media.find? (fun r => r.originalPath = checksum bytes)).map
        (fun r => r.filename) with
    | some f =>
      if f = "" then copyToMediaCopy deck path bytes
      else Except.ok (basename f, deck)
    | none => copyToMediaCopy deck path bytes

/-- updateMediaCount (media.py lines 91-108): if a row with the filename
exists, add the count to its size and refresh its timestamp; otherwise,
for a positive count, insert a fresh row whose hash is the file's checksum
when it can be read and the empty string when the open raises. -/
def updateMediaCount (deck : Deck) (file : String) (count : Int) (now : Nat) :
    Deck :=
  if deck.media.any (fun r => r.filename = file) then
    { deck with media := deck.media.map (fun r =>
        if r.filename = file then { r with size := r.size + count, created := now }
        else r) }
  else if 0 < count then
    { deck with
      media := deck.media ++
        [⟨deck.nextId, file, count, now,
          (match readFileFS deck.mfs file with
           | some c => checksum c
           | none => ""), ""⟩],
      nextId := deck.nextId + 1 }
  else deck

/-- removeUnusedMedia (media.py lines 110-115): tombstone every zero-count
row in mediaDeleted and delete those rows. -/
def removeUnusedMedia (deck : Deck) (now : Nat) : Deck :=
  { deck with
    mediaDeleted := deck.mediaDeleted ++
      ((deck.media.filter (fun r => r.size = 0)).map (fun r => (r.id, now))),
    media := deck.media.filter (fun r => ¬ r.size = 0) }

/-- Add one occurrence of a filename to the reference-count mapping,
keeping first-occurrence order. -/
def bumpRef (refs : List (String × Nat)) (f : String) : List (String × Nat) :=
  if refs.any (fun p => p.1 = f) then
    refs.map (fun p => if p.1 = f then (p.1, p.2 + 1) else p)
  else refs ++ [(f, 1)]

/-- Scan of rebuildMediaDir (media.py lines 141-150): every card's
question then answer text, every extracted reference in order. -/
def collectRefs (cards : List (String × String)) : List (String × Nat) :=
  cards.foldl (fun refs qa =>
    ((mediaFiles qa.1) ++ (mediaFiles qa.2)).foldl bumpRef refs) []

/-- Unused-file classification of rebuildMediaDir (media.py lines 155-162):
plain files of the media directory whose name carries no reference;
directories are skipped. -/
def unusedFiles (mfs : FS) (refs : List (String × Nat)) : List String :=
  (mfs.filter (fun e =>
    (match e.2 with
     | FSNode.file _ _ => true
     | FSNode.dir => false) && ! refs.any (fun p => p.1 = e.1))).map (fun e => e.1)

/-- One pending batch update of the hash-refresh pass. -/
structure HashUpdate where
  f : String
  sum : String
  c : Nat
deriving DecidableEq

/-- Hash-refresh scan of rebuildMediaDir (media.py lines 168-180): for each
row, a missing path with a non-empty stored hash queues an empty-hash
update; an existing path is opened and hashed — without any exception
handler, so an unreadable file or a directory raises — and a disagreeing
hash queues an update with the fresh hash and a fresh timestamp. -/
def freshHashChecks (mfs : FS) (media : List MediaRow) (now : Nat) :
    Except Unit (List HashUpdate) :=
  match media with
  | [] => Except.ok []
  | r :: rest =>
    if fsExists mfs r.filename then
      match readFileFS mfs r.filename with
      | none => Except.error ()
      | some c =>
        match freshHashChecks mfs rest now with
        | Except.error e => Except.error e
        | Except.ok us =>
          Except.ok (if ¬ r.originalPath = checksum c then
            ⟨r.filename, checksum c, now⟩ :: us else us)
    else
      match freshHashChecks mfs rest now with
      | Except.error e => Except.error e
      | Except.ok us =>
        Except.ok (if ¬ r.originalPath = "" then ⟨r.filename, "", now⟩ :: us else us)

/-- Batch application of the queued hash updates (media.py lines 181-184):
one SQL update per entry, each touching every row with that filename. -/
def applyHashUpdates (media : List MediaRow) (us : List HashUpdate) :
    List MediaRow :=
  us.foldl (fun m u => m.map (fun r =>
    if r.filename = u.f then { r with originalPath := u.sum, created := u.c }
    else r)) media

/-- Fresh on-disk hash of a catalog filename: checksum of a readable file,
empty string when absent. -/
def freshHashOf (mfs : FS) (f : String) : String :=
  match readFileFS mfs f with
  | some c => checksum c
  | none => ""

/-- Row transformation realized by the hash-refresh pass on a catalog with
distinct filenames. -/
def updRow (mfs : FS) (now : Nat) (r : MediaRow) : MediaRow :=
  if r.originalPath = freshHashOf mfs r.filename then r
  else { r with originalPath := freshHashOf mfs r.filename, created := now }

/-- Count phase of rebuildMediaDir (media.py lines 138-152): reset every
reference count to zero, then apply the accumulated per-filename counts
through updateMediaCount. -/
def rebuildCounts (deck : Deck) (refs : List (String × Nat)) (now : Nat) : Deck :=
  refs.foldl (fun d p => updateMediaCount d p.1 (Int.ofNat p.2) now)
    { deck with media := deck.media.map (fun r => { r with size := 0 }) }

/-- Purge phase of rebuildMediaDir (media.py lines 163-167): when deletion
is requested, tombstone and delete the zero-count rows and unlink the
unused files. -/
def rebuildPurge (d : Deck) (unused : List String) (delete : Bool) (now : Nat) :
    Deck :=
  if delete then
    let dr := removeUnusedMedia d now
    { dr with mfs := dr.mfs.filter (fun e => ¬ unused.contains e.1) }
  else d

/-- Final phase of rebuildMediaDir (media.py lines 168-190): run the
hash-refresh scan (which can raise), apply the batch updates, and return
the empty-hash filenames paired with the unused list. -/
def rebuildFinish (d : Deck) (unused : List String) (now : Nat) :
    Except Unit ((List String × List String) × Deck) :=
  match freshHashChecks d.mfs d.media now with
  | Except.error e => Except.error e
  | Except.ok us =>
    Except.ok
      ((((applyHashUpdates d.media us).filter (fun r => r.originalPath = "")).map
          (fun r => r.filename),
        unused), { d with media := applyHashUpdates d.media us })

/-- rebuildMediaDir (media.py lines 135-190): reset all counts, scan every
card, apply the counts, classify unused files, optionally purge, refresh
hashes (this pass can raise), and return the empty-hash filenames plus the
unused list.  The dirty flag only triggers deck.flushMod, which lives
outside this module. -/
def rebuildMediaDir (deck : Deck) (delete : Bool) (dirty : Bool) (now : Nat) :
    Except Unit ((List String × List String) × Deck) :=
  rebuildFinish
    (rebuildPurge (rebuildCounts deck (collectRefs deck.cards) now)
      (unusedFiles (rebuildCounts deck (collectRefs deck.cards) now).mfs
        (collectRefs deck.cards))
      delete now)
    (unusedFiles (rebuildCounts deck (collectRefs deck.cards) now).mfs
      (collectRefs deck.cards))
    now

/-- Outcome of downloadMissing: None for a missing mediaURL, (False, url)
for a fatal fetch failure, (True, grabbed, missing) for a completed
scan. -/
inductive DLResult where
  | noUrl
  | failed (url : String)
  | ok (grabbed missing : Nat)
deriving DecidableEq

/-- Loop of downloadMissing (media.py lines 202-219): for each catalog row
whose file is missing from the media directory, fetch urlbase plus the
filename; on success write the bytes to the bare filename — a path
relative to the current working directory — and count it grabbed; on
failure abort with the url when the stored hash is non-empty, otherwise
count it still missing and continue. -/
def dlLoop (fetch : String → Option (List Nat)) (urlbase : String) (mfs : FS) :
    List (String × String) → FS → Nat → Nat → DLResult × FS
  | [], cwd, grabbed, missing => (DLResult.ok grabbed missing, cwd)
  | (f, sum) :: rest, cwd, grabbed, missing =>
    if fsExists mfs f then dlLoop fetch urlbase mfs rest cwd grabbed missing
    else
      match fetch (urlbase ++ f) with
      | some bytes =>
        dlLoop fetch urlbase mfs rest (writeFileFS cwd f bytes) (grabbed + 1) missing
      | none =>
        if ¬ sum = "" then (DLResult.failed (urlbase ++ f), cwd)
        else dlLoop fetch urlbase mfs rest cwd grabbed (missing + 1)

/-- downloadMissing (media.py lines 195-222): a missing or empty mediaURL
is a no-op; otherwise run the loop over the catalog rows.  Only the
current working directory is ever written to. -/
def downloadMissing (deck : Deck) (fetch : String → Option (List Nat)) :
    DLResult × Deck :=
  match deck.mediaURL with
  | none => (DLResult.noUrl, deck)
  | some u =>
    if u = "" then (DLResult.noUrl, deck)
    else
      ((dlLoop fetch u deck.mfs (deck.media.map (fun r => (r.filename, r.originalPath)))
          deck.cwd 0 0).1,
       { deck with
         cwd := (dlLoop fetch u deck.mfs
           (deck.media.map (fun r => (r.filename, r.originalPath))) deck.cwd 0 0).2 })

/-- Rows of the loop that a full scan fetches. -/
def countFetched (fetch : String → Option (List Nat)) (u : String) (mfs : FS)
    (rows : List (String × String)) : Nat :=
  rows.countP (fun r => ! fsExists mfs r.1 && (fetch (u ++ r.1)).isSome)

/-- Rows of the loop that a full scan counts as still missing. -/
def countMissing (fetch : String → Option (List Nat)) (u : String) (mfs : FS)
    (rows : List (String × String)) : Nat :=
  rows.countP (fun r => ! fsExists mfs r.1 && (fetch (u ++ r.1)).isNone)

/-- A name that open() will not raise on during the hash-refresh pass:
either nothing exists under it, or a readable regular file does. -/
def readableOrAbsent (mfs : FS) (f : String) : Prop :=
  lookupFS mfs f = none ∨ ∃ c, readFileFS mfs f = some c

/-- A well-behaved matcher: every match consumes at least one character
and no more than the string holds. -/
def MatcherOK (m : List Char → Option (Nat × List Char)) : Prop :=
  ∀ s n g, m s = some (n, g) → 1 ≤ n ∧ n ≤ s.length

/-
  Concrete scenarios used by the example-based claims.
-/

/-- The text of the pattern-extraction example, with a single-quoted
image source. -/
def c7input : String :=
  "[sound:foo.mp3]<img src=" ++ String.mk [squote] ++ "bar.png" ++
    String.mk [squote] ++ ">"

/-- Collection of the rebuild example: one card referencing a.mp3 twice
and b.jpg once, media directory holding a.mp3, b.jpg and c.png. -/
def deckC1 : Deck :=
  { media := [], mediaDeleted := [],
    cards := [("[sound:a.mp3][sound:a.mp3]", "<img src=\"b.jpg\">")],
    mfs := [("a.mp3", FSNode.file true [1]), ("b.jpg", FSNode.file true [2]),
            ("c.png", FSNode.file true [3])],
    cwd := [], nextId := 0, mediaURL := none }

/-- Collection whose media directory holds an existing but unreadable
file listed in the catalog with a non-empty hash. -/
def deckC4 : Deck :=
  { media := [⟨1, "f", 0, 0, "h", ""⟩], mediaDeleted := [], cards := [],
    mfs := [("f", FSNode.file false [1])], cwd := [], nextId := 2,
    mediaURL := none }

/-- Collection with an empty catalog and two distinct source files of
identical byte content in the working directory. -/
def deckC5 : Deck :=
  { media := [], mediaDeleted := [], cards := [], mfs := [],
    cwd := [("s1/f.bin", FSNode.file true [7]), ("s2/f.bin", FSNode.file true [7])],
    nextId := 0, mediaURL := none }

/-- Two successive imports: returns the two resulting filenames and the
number of files then in the media directory. -/
def twoImports (deck : Deck) (p1 p2 : String) : Option (String × String × Nat) :=
  match copyToMedia deck p1 with
  | Except.ok (n1, d) =>
    (match copyToMedia d p2 with
     | Except.ok (n2, d2) => some (n1, n2, d2.mfs.length)
     | Except.error _ => none)
  | Except.error _ => none

/-- Collection whose catalog already holds the hash of byte content [7]
under the name have.bin, with that file present in the media directory and
an identical-content source file in the working directory. -/
def deckC5b : Deck :=
  { media := [⟨1, "have.bin", 1, 0, checksum [7], ""⟩], mediaDeleted := [],
    cards := [], mfs := [("have.bin", FSNode.file true [7])],
    cwd := [("s1/f.bin", FSNode.file true [7])], nextId := 2, mediaURL := none }

/-- Collection with a configured media url and one catalog row whose file
is absent from the media directory. -/
def deckC6 : Deck :=
  { media := [⟨1, "x.mp3", 1, 0, "", ""⟩], mediaDeleted := [], cards := [],
    mfs := [], cwd := [], nextId := 2, mediaURL := some "http://h/" }

/-- Media directory of the hash-refresh witness: one readable file. -/
def mfsW : FS := [("a", FSNode.file true [1])]

/-- Catalog of the hash-refresh witness: a row whose hash agrees with the
disk and a row for an absent file with a stale hash. -/
def mediaW : List MediaRow :=
  [⟨1, "a", 1, 0, checksum [1], ""⟩, ⟨2, "b", 1, 0, "x", ""⟩]

end Anki

namespace Anki

/-
  Theorems.  Helper lemmas come first, the claim theorems afterwards.
-/

theorem gapGt_le : ∀ w k, gapGt w = some k → 1 ≤ k ∧ k ≤ w.length := by
  intro w k h
  cases w with
  | nil => simp [gapGt] at h
  | cons d w' =>
    simp only [gapGt] at h
    by_cases hd : d = '>'
    · rw [if_pos hd] at h
      simp at h
      simp
      omega
    · rw [if_neg hd] at h
      by_cases ht : w'.take 1 = ['>']
      · rw [if_pos ht] at h
        simp at h
        have hlen := congrArg List.length ht
        simp at hlen
        simp
        omega
      · rw [if_neg ht] at h
        simp at h

theorem afterBody_le : ∀ w k, afterBody w = some k → 1 ≤ k ∧ k ≤ w.length := by
  intro w k h
  cases w with
  | nil => simp [afterBody] at h
  | cons c w' =>
    simp only [afterBody] at h
    by_cases hc : c = '"' ∨ c = squote
    · rw [if_pos hc] at h
      cases hg : gapGt w' with
      | some m =>
        rw [hg] at h
        simp at h
        have := gapGt_le w' m hg
        simp
        omega
      | none =>
        rw [hg] at h
        exact gapGt_le _ _ h
    · rw [if_neg hc] at h
      exact gapGt_le _ _ h

theorem bodyLoop_le : ∀ g v k gr, bodyLoop v g = some (k, gr) → 1 ≤ k ∧ k ≤ v.length := by
  intro g
  induction g with
  | zero => intro v k gr h; simp [bodyLoop] at h
  | succ g ih =>
    intro v k gr h
    simp only [bodyLoop] at h
    cases hab : afterBody (v.drop (g + 1)) with
    | some m =>
      rw [hab] at h
      simp at h
      have hb := afterBody_le _ _ hab
      have hdl : (v.drop (g + 1)).length = v.length - (g + 1) := by simp
      omega
    | none =>
      rw [hab] at h
      exact ih v k gr h

theorem quoteBody_le : ∀ v k gr, quoteBody v = some (k, gr) → 1 ≤ k ∧ k ≤ v.length := by
  intro v k gr h
  exact bodyLoop_le _ v k gr h

theorem afterSrc_le : ∀ u k gr, afterSrc u = some (k, gr) → 1 ≤ k ∧ k ≤ u.length := by
  intro u k gr h
  cases u with
  | nil => simp [afterSrc] at h
  | cons c u' =>
    simp only [afterSrc] at h
    by_cases hc : c = '"' ∨ c = squote
    · rw [if_pos hc] at h
      cases hq : quoteBody u' with
      | some r =>
        obtain ⟨m, g⟩ := r
        rw [hq] at h
        simp at h
        have := quoteBody_le u' m g hq
        simp
        omega
      | none =>
        rw [hq] at h
        exact quoteBody_le _ _ _ h
    · rw [if_neg hc] at h
      exact quoteBody_le _ _ _ h

theorem imgLoop_le : ∀ k t n g, imgLoop t k = some (n, g) → 1 ≤ n ∧ n ≤ t.length := by
  intro k
  induction k with
  | zero => intro t n g h; simp [imgLoop] at h
  | succ k ih =>
    intro t n g h
    simp only [imgLoop] at h
    by_cases hsrc : ((t.drop (k + 1)).take 4).map ciChar = "src=".data
    · rw [if_pos hsrc] at h
      cases has : afterSrc (t.drop (k + 1 + 4)) with
      | some r =>
        obtain ⟨m, gr⟩ := r
        rw [has] at h
        simp at h
        have hb := afterSrc_le _ _ _ has
        have hlen := congrArg List.length hsrc
        simp at hlen
        have hdl : (t.drop (k + 1 + 4)).length = t.length - (k + 1 + 4) := by simp
        omega
      | none =>
        rw [has] at h
        exact ih t n g h
    · rw [if_neg hsrc] at h
      exact ih t n g h

theorem soundRun_ok : MatcherOK soundRun := by
  intro s n g h
  simp only [soundRun] at h
  by_cases hpre : (s.take 7).map ciChar = "[sound:".data
  · rw [if_pos hpre] at h
    by_cases hb0 : ((s.drop 7).takeWhile (fun c => ¬ (c = ']'))).length = 0
    · rw [if_pos hb0] at h
      simp at h
    · rw [if_neg hb0] at h
      by_cases ht : (s.drop (7 + ((s.drop 7).takeWhile (fun c => ¬ (c = ']'))).length)).take 1
          = [']']
      · rw [if_pos ht] at h
        simp at h
        have hlen := congrArg List.length ht
        simp at hlen
        omega
      · rw [if_neg ht] at h
        simp at h
  · rw [if_neg hpre] at h
    simp at h

theorem imgRun_ok : MatcherOK imgRun := by
  intro s n g h
  simp only [imgRun] at h
  by_cases hpre : (s.take 4).map ciChar = "<img".data
  · rw [if_pos hpre] at h
    cases hil : imgLoop (s.drop 4)
        ((s.drop 4).takeWhile (fun c => ¬ (c = '>'))).length with
    | some r =>
      obtain ⟨m, gr⟩ := r
      rw [hil] at h
      simp at h
      have hb := imgLoop_le _ _ _ _ hil
      have hlen := congrArg List.length hpre
      simp at hlen
      have hdl : (s.drop 4).length = s.length - 4 := by simp
      omega
    | none =>
      rw [hil] at h
      simp at h
  · rw [if_neg hpre] at h
    simp at h

theorem findIn_ok {m : List Char → Option (Nat × List Char)} (hm : MatcherOK m) :
    ∀ s i n g, findIn m s = some (i, n, g) → 1 ≤ n ∧ i + n ≤ s.length := by
  intro s
  induction s with
  | nil => intro i n g h; simp [findIn] at h
  | cons c cs ih =>
    intro i n g h
    simp only [findIn] at h
    cases hm0 : m (c :: cs) with
    | some r =>
      obtain ⟨n', g'⟩ := r
      rw [hm0] at h
      simp at h
      obtain ⟨hi, hn, hg⟩ := h
      subst hi
      subst hn
      have := hm _ _ _ hm0
      simp only [List.length_cons] at this ⊢
      omega
    | none =>
      rw [hm0] at h
      cases hf : findIn m cs with
      | some r =>
        obtain ⟨i', n', g'⟩ := r
        rw [hf] at h
        simp at h
        have := ih _ _ _ hf
        simp
        omega
      | none =>
        rw [hf] at h
        simp at h

theorem subF_id {m : List Char → Option (Nat × List Char)} (fuel : Nat)
    (s : List Char) (hfi : findIn m s = none) : subF m fuel s = s := by
  cases fuel with
  | zero => rfl
  | succ f =>
    simp only [subF]
    rw [hfi]

theorem subF_len {m : List Char → Option (Nat × List Char)} (hm : MatcherOK m) :
    ∀ fuel s, s.length ≤ fuel → (subF m fuel s).length ≤ s.length := by
  intro fuel
  induction fuel with
  | zero => intro s hs; simp [subF]
  | succ f ih =>
    intro s hs
    simp only [subF]
    cases hfi : findIn m s with
    | none => simp
    | some r =>
      obtain ⟨i, n, g⟩ := r
      have hb := findIn_ok hm s i n g hfi
      have hd : (s.drop (i + n)).length ≤ f := by
        simp
        omega
      have hrec := ih (s.drop (i + n)) hd
      simp only [List.length_append, List.length_take, List.length_drop] at hrec ⊢
      omega

theorem subF_lt {m : List Char → Option (Nat × List Char)} (hm : MatcherOK m) :
    ∀ fuel s i n g, s.length ≤ fuel → findIn m s = some (i, n, g) →
      (subF m fuel s).length < s.length := by
  intro fuel
  cases fuel with
  | zero =>
    intro s i n g hs hfi
    have : s = [] := List.length_eq_zero.mp (Nat.le_antisymm hs (Nat.zero_le _))
    subst this
    simp [findIn] at hfi
  | succ f =>
    intro s i n g hs hfi
    simp only [subF]
    rw [hfi]
    have hb := findIn_ok hm s i n g hfi
    have hd : (s.drop (i + n)).length ≤ f := by
      simp
      omega
    have hrec := subF_len hm f (s.drop (i + n)) hd
    simp only [List.length_append, List.length_take, List.length_drop] at hrec ⊢
    omega

theorem findallF_nil_iff {m : List Char → Option (Nat × List Char)} :
    ∀ fuel s, s.length ≤ fuel → (findallF m fuel s = [] ↔ findIn m s = none) := by
  intro fuel s hs
  cases fuel with
  | zero =>
    have : s = [] := List.length_eq_zero.mp (Nat.le_antisymm hs (Nat.zero_le _))
    subst this
    simp [findallF, findIn]
  | succ f =>
    simp only [findallF]
    cases hfi : findIn m s with
    | none => simp
    | some r =>
      obtain ⟨i, n, g⟩ := r
      simp

theorem mediaFiles_nil_iff (t : String) :
    mediaFiles t = [] ↔
      (findIn soundRun t.data = none ∧ findIn imgRun t.data = none) := by
  unfold mediaFiles findallL
  rw [List.map_eq_nil_iff, List.append_eq_nil]
  rw [findallF_nil_iff t.data.length t.data (le_refl _),
    findallF_nil_iff t.data.length t.data (le_refl _)]

/-- Claim C2, amended: a single strip pass need not remove every reference
(deleting a match can concatenate surrounding text into a new match), but
stripping strictly shortens any text from which a reference is extracted —
so iterated stripping terminates — and extraction returns nothing exactly
when the text is a fixpoint of stripping. -/
theorem strip_fixpoint_no_references (t : String) :
    (stripMedia t = t → mediaFiles t = []) ∧
    (mediaFiles t = [] → stripMedia t = t) ∧
    (¬ mediaFiles t = [] → (stripMedia t).length < t.length) := by
  obtain ⟨d⟩ := t
  have hdata : (String.mk d).data = d := rfl
  refine ⟨?_, ?_, ?_⟩
  · intro hfix
    rw [mediaFiles_nil_iff]
    rw [hdata]
    have hfixl : subL imgRun (subL soundRun d) = d := by
      have := congrArg String.data hfix
      exact this
    cases hfs : findIn soundRun d with
    | some r =>
      obtain ⟨i, n, g⟩ := r
      have h1 : (subL soundRun d).length < d.length :=
        subF_lt soundRun_ok d.length d i n g (le_refl _) hfs
      have h2 : (subL imgRun (subL soundRun d)).length ≤ (subL soundRun d).length :=
        subF_len imgRun_ok (subL soundRun d).length (subL soundRun d) (le_refl _)
      have := congrArg List.length hfixl
      omega
    | none =>
      have hid : subL soundRun d = d := subF_id d.length d hfs
      rw [hid] at hfixl
      cases hfi : findIn imgRun d with
      | some r =>
        obtain ⟨i, n, g⟩ := r
        have h1 : (subL imgRun d).length < d.length :=
          subF_lt imgRun_ok d.length d i n g (le_refl _) hfi
        have := congrArg List.length hfixl
        omega
      | none => exact ⟨rfl, rfl⟩
  · intro hempty
    rw [mediaFiles_nil_iff] at hempty
    rw [hdata] at hempty
    obtain ⟨hfs, hfi⟩ := hempty
    have h1 : subL soundRun d = d := subF_id d.length d hfs
    have h2 : subL imgRun d = d := subF_id d.length d hfi
    show String.mk (subL imgRun (subL soundRun d)) = String.mk d
    rw [h1, h2]
  · intro hne
    rw [mediaFiles_nil_iff] at hne
    rw [hdata] at hne
    have hlen : (stripMedia (String.mk d)).length =
        (subL imgRun (subL soundRun d)).length := rfl
    have htlen : (String.mk d).length = d.length := rfl
    rw [hlen, htlen]
    cases hfs : findIn soundRun d with
    | some r =>
      obtain ⟨i, n, g⟩ := r
      have h1 : (subL soundRun d).length < d.length :=
        subF_lt soundRun_ok d.length d i n g (le_refl _) hfs
      have h2 : (subL imgRun (subL soundRun d)).length ≤ (subL soundRun d).length :=
        subF_len imgRun_ok (subL soundRun d).length (subL soundRun d) (le_refl _)
      omega
    | none =>
      have hid : subL soundRun d = d := subF_id d.length d hfs
      rw [hid]
      cases hfi : findIn imgRun d with
      | some r =>
        obtain ⟨i, n, g⟩ := r
        exact subF_lt imgRun_ok d.length d i n g (le_refl _) hfi
      | none => exact absurd ⟨hfs, hfi⟩ hne

/-- Claim C2, witness for the amended theorem at a concrete fixpoint. -/
theorem strip_fixpoint_no_references_witness : mediaFiles "ab" = [] :=
  (strip_fixpoint_no_references "ab").1 (by decide)

theorem digitChar_isDigit (n : Nat) : isDigitB (digitChar n) = true := by
  unfold digitChar
  repeat' split
  all_goals decide

theorem digitVal_digitChar (n : Nat) (h : n < 10) : digitVal (digitChar n) = n := by
  interval_cases n
  all_goals decide

theorem natToStrF_digits :
    ∀ fuel n, n < fuel → ∀ c, c ∈ natToStrF fuel n → isDigitB c = true := by
  intro fuel
  induction fuel with
  | zero => intro n hn; omega
  | succ f ih =>
    intro n hn c hc
    simp only [natToStrF] at hc
    by_cases h10 : n < 10
    · rw [if_pos h10] at hc
      simp at hc
      subst hc
      exact digitChar_isDigit n
    · rw [if_neg h10] at hc
      rw [List.mem_append] at hc
      cases hc with
      | inl hmem =>
        exact ih (n / 10) (by omega) c hmem
      | inr hmem =>
        simp at hmem
        subst hmem
        exact digitChar_isDigit (n % 10)

theorem natToStrF_ne_nil :
    ∀ fuel n, n < fuel → ¬ natToStrF fuel n = [] := by
  intro fuel n hn
  cases fuel with
  | zero => omega
  | succ f =>
    simp only [natToStrF]
    by_cases h10 : n < 10
    · rw [if_pos h10]
      simp
    · rw [if_neg h10]
      simp

theorem digitsToNat_append_one (xs : List Char) (c : Char) :
    digitsToNat (xs ++ [c]) = digitsToNat xs * 10 + digitVal c := by
  unfold digitsToNat
  rw [List.foldl_append]
  simp

theorem digitsToNat_natToStrF :
    ∀ fuel n, n < fuel → digitsToNat (natToStrF fuel n) = n := by
  intro fuel
  induction fuel with
  | zero => intro n hn; omega
  | succ f ih =>
    intro n hn
    simp only [natToStrF]
    by_cases h10 : n < 10
    · rw [if_pos h10]
      unfold digitsToNat
      simp
      exact digitVal_digitChar n h10
    · rw [if_neg h10]
      rw [digitsToNat_append_one]
      have hrec := ih (n / 10) (by omega)
      rw [hrec]
      rw [digitVal_digitChar (n % 10) (by omega)]
      omega

theorem natToStr_digits (n : Nat) : ∀ c, c ∈ natToStr n → isDigitB c = true :=
  natToStrF_digits (n + 1) n (by omega)

theorem natToStr_ne_nil (n : Nat) : ¬ natToStr n = [] :=
  natToStrF_ne_nil (n + 1) n (by omega)

theorem digitsToNat_natToStr (n : Nat) : digitsToNat (natToStr n) = n :=
  digitsToNat_natToStrF (n + 1) n (by omega)

theorem takeWhile_append_all (p : Char → Bool) :
    ∀ (xs : List Char) (y : Char) (ys : List Char),
      (∀ c, c ∈ xs → p c = true) → p y = false →
      (xs ++ y :: ys).takeWhile p = xs := by
  intro xs
  induction xs with
  | nil =>
    intro y ys _ hy
    simp [List.takeWhile_cons, hy]
  | cons x xs ih =>
    intro y ys hall hy
    have hx : p x = true := hall x (by simp)
    simp only [List.cons_append, List.takeWhile_cons, hx]
    simp
    exact ih y ys (fun c hc => hall c (by simp [hc])) hy

theorem splitCounter_append_counter (stem : List Char) (n : Nat) :
    splitCounter (stem ++ counterStr n) = some (stem, n) := by
  have hrev : (stem ++ counterStr n).reverse =
      ')' :: ((natToStr n).reverse ++ '(' :: ' ' :: stem.reverse) := by
    simp [counterStr, List.reverse_append]
  simp only [splitCounter]
  rw [hrev]
  simp only [if_pos rfl]
  have hds : ((natToStr n).reverse ++ '(' :: ' ' :: stem.reverse).takeWhile isDigitB =
      (natToStr n).reverse := by
    apply takeWhile_append_all
    · intro c hc
      rw [List.mem_reverse] at hc
      exact natToStr_digits n c hc
    · decide
  rw [hds]
  have hlen0 : ¬ (natToStr n).reverse.length = 0 := by
    simp
    exact natToStr_ne_nil n
  rw [if_neg hlen0]
  have hdrop : ((natToStr n).reverse ++ '(' :: ' ' :: stem.reverse).drop
      (natToStr n).reverse.length = '(' :: ' ' :: stem.reverse :=
    List.drop_left _ _
  rw [hdrop]
  simp
  exact digitsToNat_natToStr n

theorem counterStr_length_pos (n : Nat) : 0 < (counterStr n).length := by
  simp [counterStr]

theorem counter_inj (s : List Char) (n m : Nat)
    (h : s ++ counterStr n = s ++ counterStr m) : n = m := by
  have := congrArg splitCounter h
  rw [splitCounter_append_counter, splitCounter_append_counter] at this
  simp at this
  exact this

theorem repl_append_counter (s : List Char) (n : Nat) :
    repl (s ++ counterStr n) = s ++ counterStr (n + 1) := by
  unfold repl
  rw [splitCounter_append_counter]

theorem iterRepl_succ (k : Nat) (r : List Char) :
    iterRepl (k + 1) r = repl (iterRepl k r) := by
  induction k generalizing r with
  | zero => rfl
  | succ k ih =>
    show iterRepl (k + 1) (repl r) = repl (iterRepl (k + 1) r)
    rw [ih (repl r)]
    rfl

theorem iterRepl_none (root : List Char) (hsc : splitCounter root = none) :
    ∀ k, iterRepl (k + 1) root = root ++ counterStr (k + 1) := by
  intro k
  induction k with
  | zero =>
    show iterRepl 0 (repl root) = root ++ counterStr 1
    unfold iterRepl repl
    rw [hsc]
  | succ k ih =>
    rw [iterRepl_succ, ih, repl_append_counter]

theorem iterRepl_some (root stem : List Char) (n : Nat)
    (hsc : splitCounter root = some (stem, n)) :
    ∀ k, iterRepl (k + 1) root = stem ++ counterStr (n + k + 1) := by
  intro k
  induction k with
  | zero =>
    show iterRepl 0 (repl root) = stem ++ counterStr (n + 1)
    unfold iterRepl repl
    rw [hsc]
  | succ k ih =>
    rw [iterRepl_succ, ih, repl_append_counter]
    have harith : n + k + 1 + 1 = n + (k + 1) + 1 := by omega
    rw [harith]

theorem iterRepl_inj (root : List Char) :
    ∀ i j, iterRepl i root = iterRepl j root → i = j := by
  have key : ∀ i j, i < j → ¬ iterRepl i root = iterRepl j root := by
    intro i j hij h
    cases i with
    | zero =>
      obtain ⟨j', rfl⟩ : ∃ j', j = j' + 1 := ⟨j - 1, by omega⟩
      cases hsc : splitCounter root with
      | none =>
        rw [iterRepl_none root hsc j'] at h
        have := congrArg List.length h
        simp only [iterRepl] at this
        rw [List.length_append] at this
        have := counterStr_length_pos (j' + 1)
        omega
      | some r =>
        obtain ⟨s, n⟩ := r
        rw [iterRepl_some root s n hsc j'] at h
        have h2 := congrArg splitCounter h
        simp only [iterRepl] at h2
        rw [hsc, splitCounter_append_counter] at h2
        simp at h2
        omega
    | succ i' =>
      obtain ⟨j', rfl⟩ : ∃ j', j = j' + 1 := ⟨j - 1, by omega⟩
      cases hsc : splitCounter root with
      | none =>
        rw [iterRepl_none root hsc i', iterRepl_none root hsc j'] at h
        have := counter_inj _ _ _ h
        omega
      | some r =>
        obtain ⟨s, n⟩ := r
        rw [iterRepl_some root s n hsc i', iterRepl_some root s n hsc j'] at h
        have := counter_inj _ _ _ h
        omega
  intro i j h
  rcases Nat.lt_trichotomy i j with hlt | heq | hgt
  · exact absurd h (key i j hlt)
  · exact heq
  · exact absurd h.symm (key j i hgt)

theorem joinPath_inj (dir : String) (x y : List Char)
    (h : joinPath dir x = joinPath dir y) : x = y := by
  unfold joinPath at h
  have hd := congrArg String.data h
  simp only [] at hd
  have := List.append_cancel_left hd
  exact List.tail_eq_of_cons_eq this

theorem cand_inj (dir : String) (root ext : List Char) :
    Function.Injective (fun k => joinPath dir (iterRepl k root ++ ext)) := by
  intro a b hab
  have h1 := joinPath_inj dir _ _ hab
  have h2 := List.append_cancel_right h1
  exact iterRepl_inj root a b h2

theorem exists_free (L : List String) (f : Nat → String)
    (hf : Function.Injective f) : ∃ k, k ≤ L.length ∧ ¬ f k ∈ L := by
  by_contra hcon
  push_neg at hcon
  have hnd : ((List.range (L.length + 1)).map f).Nodup :=
    List.Nodup.map hf (List.nodup_range _)
  have hsub : (List.range (L.length + 1)).map f ⊆ L := by
    intro x hx
    rw [List.mem_map] at hx
    obtain ⟨k, hk, rfl⟩ := hx
    rw [List.mem_range] at hk
    exact hcon k (by omega)
  have hlen := (List.subperm_of_subset hnd hsub).length_le
  simp at hlen

theorem uniquePathF_reaches (taken : String → Bool) (dir : String) (ext : List Char) :
    ∀ k root fuel, k < fuel →
      (∀ j, j < k → taken (joinPath dir (iterRepl j root ++ ext)) = true) →
      taken (joinPath dir (iterRepl k root ++ ext)) = false →
      uniquePathF taken dir ext root fuel =
        some (joinPath dir (iterRepl k root ++ ext)) := by
  intro k
  induction k with
  | zero =>
    intro root fuel hfuel _ hfree
    obtain ⟨f, rfl⟩ : ∃ f, fuel = f + 1 := ⟨fuel - 1, by omega⟩
    simp only [uniquePathF]
    have : iterRepl 0 root = root := rfl
    rw [this] at hfree
    simp [hfree]
    rfl
  | succ k ih =>
    intro root fuel hfuel htaken hfree
    obtain ⟨f, rfl⟩ : ∃ f, fuel = f + 1 := ⟨fuel - 1, by omega⟩
    simp only [uniquePathF]
    have h0 : taken (joinPath dir (root ++ ext)) = true := by
      have := htaken 0 (by omega)
      exact this
    rw [h0]
    simp only [if_true]
    have hshift : ∀ j, j < k → taken (joinPath dir (iterRepl j (repl root) ++ ext)) = true := by
      intro j hj
      exact htaken (j + 1) (by omega)
    exact ih (repl root) f (by omega) hshift hfree

/-- Claim C10: for every directory with finitely many entries and every
candidate base name, the allocator's search loop terminates within one
more step than the directory size: successive stems are pairwise distinct
(the appended counter strictly increases), so among the first size-plus-one
candidates one is free, and the loop returns a name absent from the
directory. -/
theorem uniquePath_terminates (L : List String) (dir base : String) :
    ∃ p, uniquePath (tk L) dir base (L.length + 1) = some p ∧ ¬ p ∈ L := by
  unfold uniquePath
  set root := (splitext (sanitize base.data)).1 with hroot
  set ext := (splitext (sanitize base.data)).2 with hext
  obtain ⟨k, hk, hfree⟩ := exists_free L
    (fun j => joinPath dir (iterRepl j root ++ ext)) (cand_inj dir root ext)
  have hex : ∃ j, tk L (joinPath dir (iterRepl j root ++ ext)) = false :=
    ⟨k, by simp only [tk, decide_eq_false_iff_not]; exact hfree⟩
  have hk0le : Nat.find hex ≤ k :=
    Nat.find_min' hex (by simp only [tk, decide_eq_false_iff_not]; exact hfree)
  have hless : ∀ j, j < Nat.find hex →
      tk L (joinPath dir (iterRepl j root ++ ext)) = true := by
    intro j hj
    have hnot := Nat.find_min hex hj
    cases htb : tk L (joinPath dir (iterRepl j root ++ ext))
    · exact absurd htb hnot
    · rfl
  refine ⟨joinPath dir (iterRepl (Nat.find hex) root ++ ext), ?_, ?_⟩
  · exact uniquePathF_reaches (tk L) dir ext (Nat.find hex) root (L.length + 1)
      (by omega) hless (Nat.find_spec hex)
  · exact of_decide_eq_false (Nat.find_spec hex)

/-- Claim C10, witness: the empty directory instance. -/
theorem uniquePath_terminates_witness :
    ∃ p, uniquePath (tk []) "m" "b" 1 = some p ∧ ¬ p ∈ ([] : List String) :=
  uniquePath_terminates [] "m" "b"

theorem fsExists_false_of_lookup_none (mfs : FS) (f : String)
    (h : lookupFS mfs f = none) : fsExists mfs f = false := by
  unfold fsExists
  rw [h]
  rfl

theorem readFileFS_none_of_lookup_none (mfs : FS) (f : String)
    (h : lookupFS mfs f = none) : readFileFS mfs f = none := by
  unfold readFileFS
  rw [h]

theorem fsExists_of_read (mfs : FS) (f : String) (c : List Nat)
    (h : readFileFS mfs f = some c) : fsExists mfs f = true := by
  unfold readFileFS at h
  unfold fsExists
  cases hl : lookupFS mfs f with
  | none => rw [hl] at h; simp at h
  | some node => rfl

theorem freshHashOf_absent (mfs : FS) (f : String)
    (h : lookupFS mfs f = none) : freshHashOf mfs f = "" := by
  unfold freshHashOf
  rw [readFileFS_none_of_lookup_none mfs f h]

theorem freshHashOf_read (mfs : FS) (f : String) (c : List Nat)
    (h : readFileFS mfs f = some c) : freshHashOf mfs f = checksum c := by
  unfold freshHashOf
  rw [h]

theorem updRow_filename (mfs : FS) (now : Nat) (r : MediaRow) :
    (updRow mfs now r).filename = r.filename := by
  unfold updRow
  split
  · rfl
  · rfl

theorem updRow_absent (mfs : FS) (now : Nat) (r : MediaRow)
    (h : lookupFS mfs (updRow mfs now r).filename = none) :
    (updRow mfs now r).originalPath = "" := by
  rw [updRow_filename] at h
  have hfresh : freshHashOf mfs r.filename = "" := freshHashOf_absent mfs _ h
  unfold updRow
  split
  · next heq => rw [heq, hfresh]
  · simp [hfresh]

theorem applyHashUpdates_head (x : MediaRow) :
    ∀ (us : List HashUpdate) (m : List MediaRow),
      (∀ u, u ∈ us → ¬ u.f = x.filename) →
      applyHashUpdates (x :: m) us = x :: applyHashUpdates m us := by
  intro us
  induction us with
  | nil => intro m _; rfl
  | cons u us ih =>
    intro m hne
    have hx : ¬ x.filename = u.f := by
      intro h
      exact hne u (by simp) h.symm
    show applyHashUpdates ((x :: m).map (fun r =>
      if r.filename = u.f then { r with originalPath := u.sum, created := u.c }
      else r)) us = _
    rw [List.map_cons]
    rw [if_neg hx]
    exact ih (m.map _) (fun v hv => hne v (by simp [hv]))

theorem freshHashChecks_names (mfs : FS) (now : Nat) :
    ∀ (media : List MediaRow) (us : List HashUpdate),
      freshHashChecks mfs media now = Except.ok us →
      ∀ u, u ∈ us → u.f ∈ media.map (fun r => r.filename) := by
  intro media
  induction media with
  | nil =>
    intro us h u hu
    simp only [freshHashChecks] at h
    cases h
    simp at hu
  | cons r rest ih =>
    intro us h u hu
    simp only [freshHashChecks] at h
    by_cases hex : fsExists mfs r.filename = true
    · rw [if_pos hex] at h
      cases hrf : readFileFS mfs r.filename with
      | none => rw [hrf] at h; cases h
      | some c =>
        rw [hrf] at h
        cases hrec : freshHashChecks mfs rest now with
        | error e => rw [hrec] at h; cases h
        | ok us' =>
          rw [hrec] at h
          cases h
          by_cases hne : ¬ r.originalPath = checksum c
          · rw [if_pos hne] at hu
            simp at hu
            cases hu with
            | inl h0 => subst h0; simp
            | inr h0 => have := ih us' hrec u h0; simp at this ⊢; tauto
          · rw [if_neg hne] at hu
            have := ih us' hrec u hu
            simp at this ⊢
            tauto
    · rw [if_neg hex] at h
      cases hrec : freshHashChecks mfs rest now with
      | error e => rw [hrec] at h; cases h
      | ok us' =>
        rw [hrec] at h
        cases h
        by_cases hne : ¬ r.originalPath = ""
        · rw [if_pos hne] at hu
          simp at hu
          cases hu with
          | inl h0 => subst h0; simp
          | inr h0 => have := ih us' hrec u h0; simp at this ⊢; tauto
        · rw [if_neg hne] at hu
          have := ih us' hrec u hu
          simp at this ⊢
          tauto

theorem map_id_of_eq {α : Type} (f : α → α) :
    ∀ (l : List α), (∀ a, a ∈ l → f a = a) → l.map f = l := by
  intro l
  induction l with
  | nil => intro _; rfl
  | cons x xs ih =>
    intro h
    rw [List.map_cons, h x (List.mem_cons_self _ _),
      ih (fun a ha => h a (List.mem_cons_of_mem _ ha))]

theorem applyHashUpdates_cons (m : List MediaRow) (f s : String) (c : Nat)
    (us : List HashUpdate) :
    applyHashUpdates m (⟨f, s, c⟩ :: us) =
      applyHashUpdates (m.map (fun r =>
        if r.filename = f then { r with originalPath := s, created := c } else r))
        us := rfl

theorem refresh_ok (mfs : FS) (now : Nat) :
    ∀ (media : List MediaRow),
      (media.map (fun r => r.filename)).Nodup →
      (∀ r, r ∈ media → readableOrAbsent mfs r.filename) →
      ∃ us, freshHashChecks mfs media now = Except.ok us ∧
        us = (media.filter
            (fun r => ¬ r.originalPath = freshHashOf mfs r.filename)).map
          (fun r => ⟨r.filename, freshHashOf mfs r.filename, now⟩) ∧
        applyHashUpdates media us = media.map (updRow mfs now) := by
  intro media
  induction media with
  | nil =>
    intro _ _
    exact ⟨[], rfl, rfl, rfl⟩
  | cons r rest ih =>
    intro hnd hra
    rw [List.map_cons, List.nodup_cons] at hnd
    obtain ⟨hnotin, hnd'⟩ := hnd
    obtain ⟨us', hok', hval', happ'⟩ :=
      ih hnd' (fun q hq => hra q (List.mem_cons_of_mem _ hq))
    have husnames : ∀ u, u ∈ us' → ¬ u.f = r.filename := by
      intro u hu heq
      have := freshHashChecks_names mfs now rest us' hok' u hu
      rw [heq] at this
      exact hnotin this
    have hchk : freshHashChecks mfs (r :: rest) now = Except.ok
        (if ¬ r.originalPath = freshHashOf mfs r.filename then
          (⟨r.filename, freshHashOf mfs r.filename, now⟩ : HashUpdate) :: us'
        else us') := by
      cases hra r (List.mem_cons_self r rest) with
      | inl hl =>
        have hexF : fsExists mfs r.filename = false :=
          fsExists_false_of_lookup_none mfs _ hl
        have hfr : freshHashOf mfs r.filename = "" := freshHashOf_absent mfs _ hl
        rw [hfr]
        simp only [freshHashChecks]
        rw [hexF]
        rw [if_neg (by decide : ¬ (false = true))]
        rw [hok']
      | inr hsome =>
        obtain ⟨c, hread⟩ := hsome
        have hexT : fsExists mfs r.filename = true := fsExists_of_read mfs _ c hread
        have hfr : freshHashOf mfs r.filename = checksum c :=
          freshHashOf_read mfs _ c hread
        rw [hfr]
        simp only [freshHashChecks]
        rw [if_pos hexT]
        rw [hread]
        rw [hok']
    refine ⟨_, hchk, ?_, ?_⟩
    · rw [List.filter_cons]
      simp only [decide_not] at hval' ⊢
      by_cases horig : r.originalPath = freshHashOf mfs r.filename
      · rw [if_neg (not_not_intro horig)]
        rw [if_neg (by simp [horig])]
        exact hval'
      · rw [if_pos horig]
        rw [if_pos (by simp [horig])]
        rw [List.map_cons, hval']
    · by_cases horig : r.originalPath = freshHashOf mfs r.filename
      · rw [if_neg (not_not_intro horig)]
        rw [applyHashUpdates_head r us' rest husnames, happ', List.map_cons]
        congr 1
        unfold updRow
        rw [if_pos horig]
      · rw [if_pos horig]
        rw [applyHashUpdates_cons]
        rw [List.map_cons]
        rw [if_pos rfl]
        have hrestskip : rest.map (fun q =>
            if q.filename = r.filename then
              { q with originalPath := freshHashOf mfs r.filename, created := now }
            else q) = rest := by
          apply map_id_of_eq
          intro q hq
          rw [if_neg]
          intro heq
          exact hnotin (heq ▸ List.mem_map_of_mem _ hq)
        rw [hrestskip]
        rw [applyHashUpdates_head
          { r with originalPath := freshHashOf mfs r.filename, created := now }
          us' rest (by intro u hu; exact husnames u hu)]
        rw [happ', List.map_cons]
        congr 1
        unfold updRow
        rw [if_neg horig]

theorem rebuildFinish_ok (d : Deck) (unused : List String) (now : Nat)
    (hnd : (d.media.map (fun r => r.filename)).Nodup)
    (hra : ∀ r, r ∈ d.media → readableOrAbsent d.mfs r.filename) :
    ∃ d', rebuildFinish d unused now = Except.ok
        (((d'.media.filter (fun r => r.originalPath = "")).map (fun r => r.filename),
          unused), d') ∧
      d'.mfs = d.mfs ∧ d'.media = d.media.map (updRow d.mfs now) := by
  obtain ⟨us, hok, _, happ⟩ := refresh_ok d.mfs now d.media hnd hra
  refine ⟨{ d with media := applyHashUpdates d.media us }, ?_, rfl, happ⟩
  unfold rebuildFinish
  rw [hok]

theorem updateMediaCount_mfs (d : Deck) (f : String) (c : Int) (now : Nat) :
    (updateMediaCount d f c now).mfs = d.mfs := by
  unfold updateMediaCount
  split
  · rfl
  · split
    · rfl
    · rfl

theorem foldl_updateMediaCount_mfs (now : Nat) :
    ∀ (refs : List (String × Nat)) (d : Deck),
      (refs.foldl (fun d p => updateMediaCount d p.1 (Int.ofNat p.2) now) d).mfs =
        d.mfs := by
  intro refs
  induction refs with
  | nil => intro d; rfl
  | cons p ps ih =>
    intro d
    rw [List.foldl_cons, ih, updateMediaCount_mfs]

theorem rebuildCounts_mfs (deck : Deck) (refs : List (String × Nat)) (now : Nat) :
    (rebuildCounts deck refs now).mfs = deck.mfs := by
  unfold rebuildCounts
  rw [foldl_updateMediaCount_mfs]

theorem map_filename_update (media : List MediaRow) (g : MediaRow → MediaRow)
    (hg : ∀ r, (g r).filename = r.filename) :
    (media.map g).map (fun r => r.filename) = media.map (fun r => r.filename) := by
  induction media with
  | nil => rfl
  | cons x xs ih =>
    rw [List.map_cons, List.map_cons, List.map_cons, hg x, ih]

theorem updateMediaCount_nodup (d : Deck) (f : String) (c : Int) (now : Nat)
    (h : (d.media.map (fun r => r.filename)).Nodup) :
    ((updateMediaCount d f c now).media.map (fun r => r.filename)).Nodup := by
  unfold updateMediaCount
  split
  · next hany =>
    show ((d.media.map _).map _).Nodup
    rw [map_filename_update]
    · exact h
    · intro r
      split
      · rfl
      · rfl
  · split
    · next hany hc =>
      show ((d.media ++ [_]).map _).Nodup
      rw [List.map_append]
      have hnotin : ¬ f ∈ d.media.map (fun r => r.filename) := by
        intro hmem
        apply hany
        rw [List.any_eq_true]
        obtain ⟨r, hr, hrf⟩ := List.mem_map.mp hmem
        exact ⟨r, hr, by simp [hrf]⟩
      apply List.Nodup.append h (by simp)
      intro x hx hx'
      simp at hx'
      subst hx'
      exact hnotin hx
    · exact h

theorem foldl_updateMediaCount_nodup (now : Nat) :
    ∀ (refs : List (String × Nat)) (d : Deck),
      (d.media.map (fun r => r.filename)).Nodup →
      ((refs.foldl (fun d p => updateMediaCount d p.1 (Int.ofNat p.2) now) d).media.map
        (fun r => r.filename)).Nodup := by
  intro refs
  induction refs with
  | nil => intro d h; exact h
  | cons p ps ih =>
    intro d h
    rw [List.foldl_cons]
    exact ih _ (updateMediaCount_nodup d p.1 (Int.ofNat p.2) now h)

theorem rebuildCounts_nodup (deck : Deck) (refs : List (String × Nat)) (now : Nat)
    (h : (deck.media.map (fun r => r.filename)).Nodup) :
    ((rebuildCounts deck refs now).media.map (fun r => r.filename)).Nodup := by
  unfold rebuildCounts
  apply foldl_updateMediaCount_nodup
  show ((deck.media.map _).map _).Nodup
  rw [map_filename_update]
  · exact h
  · intro r
    rfl

theorem rebuildPurge_mfs_mem (d : Deck) (u : List String) (del : Bool) (now : Nat) :
    ∀ e, e ∈ (rebuildPurge d u del now).mfs → e ∈ d.mfs := by
  intro e he
  unfold rebuildPurge at he
  split at he
  · exact List.mem_of_mem_filter he
  · exact he

theorem rebuildPurge_nodup (d : Deck) (u : List String) (del : Bool) (now : Nat)
    (h : (d.media.map (fun r => r.filename)).Nodup) :
    ((rebuildPurge d u del now).media.map (fun r => r.filename)).Nodup := by
  unfold rebuildPurge
  split
  · exact List.Nodup.sublist (List.Sublist.map _ (List.filter_sublist _)) h
  · exact h

theorem readable_all (mfs : FS)
    (h : ∀ e, e ∈ mfs → ∃ c, e.2 = FSNode.file true c) (f : String) :
    readableOrAbsent mfs f := by
  cases hl : lookupFS mfs f with
  | none => exact Or.inl hl
  | some node =>
    unfold lookupFS at hl
    cases hf : mfs.find? (fun e => e.1 = f) with
    | none => rw [hf] at hl; simp at hl
    | some e =>
      rw [hf] at hl
      simp at hl
      obtain ⟨c, hc⟩ := h e (List.mem_of_find?_eq_some hf)
      refine Or.inr ⟨c, ?_⟩
      unfold readFileFS lookupFS
      rw [hf]
      simp [hc]

/-- Claim C9: with distinct catalog filenames and a media directory on
which hashing cannot raise, the hash-refresh scan succeeds, its batch list
consists of exactly the rows whose stored hash disagrees with the freshly
computed on-disk hash (empty for an absent file), each carrying the fresh
hash and the fresh timestamp, and applying the batch rewrites exactly the
disagreeing rows — agreeing rows keep their fields, including their
timestamp. -/
theorem refresh_updates_exactly_changed (mfs : FS) (media : List MediaRow)
    (now : Nat)
    (hnd : (media.map (fun r => r.filename)).Nodup)
    (hra : ∀ r, r ∈ media → readableOrAbsent mfs r.filename) :
    ∃ us, freshHashChecks mfs media now = Except.ok us ∧
      us = (media.filter
          (fun r => ¬ r.originalPath = freshHashOf mfs r.filename)).map
        (fun r => ⟨r.filename, freshHashOf mfs r.filename, now⟩) ∧
      applyHashUpdates media us = media.map (updRow mfs now) :=
  refresh_ok mfs now media hnd hra

/-- Claim C9, witness: a concrete catalog with one agreeing row and one
stale row for an absent file. -/
theorem refresh_updates_exactly_changed_witness :
    ∃ us, freshHashChecks mfsW mediaW 3 = Except.ok us ∧
      us = (mediaW.filter
          (fun r => ¬ r.originalPath = freshHashOf mfsW r.filename)).map
        (fun r => ⟨r.filename, freshHashOf mfsW r.filename, 3⟩) ∧
      applyHashUpdates mediaW us = mediaW.map (updRow mfsW 3) :=
  refresh_updates_exactly_changed mfsW mediaW 3 (by decide)
    (by
      intro r hr
      simp [mediaW] at hr
      rcases hr with rfl | rfl
      · exact Or.inr ⟨[1], rfl⟩
      · exact Or.inl rfl)

/-- Claim C4, amended: when every entry of the media directory is a
readable regular file and catalog filenames are distinct, rebuild
propagates no error and every surviving catalog row whose file is absent
ends with an empty content hash; but an existing file that cannot be
opened during the hash-refresh pass makes rebuild raise (see the
counterexample) — the unreadable-to-empty-hash fallback exists only in the
upsert path. -/
theorem rebuild_absent_empty_hash (deck : Deck) (delete dirty : Bool) (now : Nat)
    (hmfs : ∀ e, e ∈ deck.mfs → ∃ c, e.2 = FSNode.file true c)
    (hnd : (deck.media.map (fun r => r.filename)).Nodup) :
    ∃ res d', rebuildMediaDir deck delete dirty now = Except.ok (res, d') ∧
      ∀ r, r ∈ d'.media → lookupFS d'.mfs r.filename = none →
        r.originalPath = "" := by
  unfold rebuildMediaDir
  set R := collectRefs deck.cards with hR
  set dc := rebuildCounts deck R now with hdc
  set un := unusedFiles dc.mfs R with hun
  set dp := rebuildPurge dc un delete now with hdp
  have hdcn : (dc.media.map (fun r => r.filename)).Nodup := by
    rw [hdc]
    exact rebuildCounts_nodup deck R now hnd
  have hdpn : (dp.media.map (fun r => r.filename)).Nodup := by
    rw [hdp]
    exact rebuildPurge_nodup dc un delete now hdcn
  have hdpmfs : ∀ e, e ∈ dp.mfs → ∃ c, e.2 = FSNode.file true c := by
    intro e he
    apply hmfs
    have h1 : e ∈ dc.mfs := by
      rw [hdp] at he
      exact rebuildPurge_mfs_mem dc un delete now e he
    rw [hdc, rebuildCounts_mfs] at h1
    exact h1
  have hra : ∀ r, r ∈ dp.media → readableOrAbsent dp.mfs r.filename :=
    fun r _ => readable_all dp.mfs hdpmfs r.filename
  obtain ⟨d', hfin, hmfs', hmedia'⟩ := rebuildFinish_ok dp un now hdpn hra
  refine ⟨_, d', hfin, ?_⟩
  intro r hr hlook
  rw [hmedia'] at hr
  obtain ⟨q, hq, rfl⟩ := List.mem_map.mp hr
  rw [hmfs'] at hlook
  exact updRow_absent dp.mfs now q hlook

/-- Claim C4, witness for the amended theorem on the concrete rebuild
scenario deck. -/
theorem rebuild_absent_empty_hash_witness :
    ∃ res d', rebuildMediaDir deckC1 false true 7 = Except.ok (res, d') ∧
      ∀ r, r ∈ d'.media → lookupFS d'.mfs r.filename = none →
        r.originalPath = "" :=
  rebuild_absent_empty_hash deckC1 false true 7
    (by
      intro e he
      simp [deckC1] at he
      rcases he with rfl | rfl | rfl
      · exact ⟨[1], rfl⟩
      · exact ⟨[2], rfl⟩
      · exact ⟨[3], rfl⟩)
    (by decide)

theorem lookup_none_of_not_exists (mfs : FS) (f : String)
    (h : ¬ fsExists mfs f = true) : lookupFS mfs f = none := by
  cases hl : lookupFS mfs f with
  | none => rfl
  | some node =>
    exfalso
    apply h
    unfold fsExists
    rw [hl]
    rfl

theorem dlLoop_nil (fetch : String → Option (List Nat)) (u : String) (mfs : FS)
    (cwd : FS) (g m : Nat) :
    dlLoop fetch u mfs [] cwd g m = (DLResult.ok g m, cwd) := rfl

theorem dlLoop_cons_skip (fetch : String → Option (List Nat)) (u : String)
    (mfs : FS) (f sum : String) (rest : List (String × String)) (cwd : FS)
    (g m : Nat) (hex : fsExists mfs f = true) :
    dlLoop fetch u mfs ((f, sum) :: rest) cwd g m =
      dlLoop fetch u mfs rest cwd g m := by
  simp only [dlLoop, hex]
  simp

theorem dlLoop_cons_fetch (fetch : String → Option (List Nat)) (u : String)
    (mfs : FS) (f sum : String) (rest : List (String × String)) (cwd : FS)
    (g m : Nat) (bytes : List Nat) (hex : fsExists mfs f = false)
    (hf : fetch (u ++ f) = some bytes) :
    dlLoop fetch u mfs ((f, sum) :: rest) cwd g m =
      dlLoop fetch u mfs rest (writeFileFS cwd f bytes) (g + 1) m := by
  simp only [dlLoop, hex, hf]
  simp

theorem dlLoop_cons_fail (fetch : String → Option (List Nat)) (u : String)
    (mfs : FS) (f sum : String) (rest : List (String × String)) (cwd : FS)
    (g m : Nat) (hex : fsExists mfs f = false) (hf : fetch (u ++ f) = none)
    (hs : ¬ sum = "") :
    dlLoop fetch u mfs ((f, sum) :: rest) cwd g m =
      (DLResult.failed (u ++ f), cwd) := by
  simp only [dlLoop, hex, hf]
  simp [hs]

theorem dlLoop_cons_miss (fetch : String → Option (List Nat)) (u : String)
    (mfs : FS) (f : String) (rest : List (String × String)) (cwd : FS)
    (g m : Nat) (hex : fsExists mfs f = false) (hf : fetch (u ++ f) = none) :
    dlLoop fetch u mfs ((f, "") :: rest) cwd g m =
      dlLoop fetch u mfs rest cwd g (m + 1) := by
  simp only [dlLoop, hex, hf]
  simp

theorem dlLoop_complete (fetch : String → Option (List Nat)) (u : String) (mfs : FS) :
    ∀ (rows : List (String × String)),
      (∀ f sum, (f, sum) ∈ rows → lookupFS mfs f = none →
        fetch (u ++ f) = none → sum = "") →
      ∀ (cwd : FS) (g m : Nat), ∃ cwd',
        dlLoop fetch u mfs rows cwd g m =
          (DLResult.ok (g + countFetched fetch u mfs rows)
            (m + countMissing fetch u mfs rows), cwd') := by
  intro rows
  induction rows with
  | nil =>
    intro _ cwd g m
    refine ⟨cwd, ?_⟩
    simp [dlLoop, countFetched, countMissing]
  | cons row rest ih =>
    obtain ⟨f, sum⟩ := row
    intro hsafe cwd g m
    have hsafe' : ∀ f' s', (f', s') ∈ rest → lookupFS mfs f' = none →
        fetch (u ++ f') = none → s' = "" :=
      fun f' s' h' => hsafe f' s' (List.mem_cons_of_mem _ h')
    by_cases hex : fsExists mfs f = true
    · rw [dlLoop_cons_skip fetch u mfs f sum rest cwd g m hex]
      have hcf : countFetched fetch u mfs ((f, sum) :: rest) =
          countFetched fetch u mfs rest := by
        unfold countFetched
        rw [List.countP_cons]
        simp [hex]
      have hcm : countMissing fetch u mfs ((f, sum) :: rest) =
          countMissing fetch u mfs rest := by
        unfold countMissing
        rw [List.countP_cons]
        simp [hex]
      rw [hcf, hcm]
      exact ih hsafe' cwd g m
    · have hlook := lookup_none_of_not_exists mfs f hex
      have hexf : fsExists mfs f = false := fsExists_false_of_lookup_none mfs f hlook
      cases hfetch : fetch (u ++ f) with
      | some bytes =>
        have hcf : countFetched fetch u mfs ((f, sum) :: rest) =
            countFetched fetch u mfs rest + 1 := by
          unfold countFetched
          rw [List.countP_cons]
          simp [hexf, hfetch]
        have hcm : countMissing fetch u mfs ((f, sum) :: rest) =
            countMissing fetch u mfs rest := by
          unfold countMissing
          rw [List.countP_cons]
          simp [hexf, hfetch]
        obtain ⟨cwd', hrec⟩ := ih hsafe' (writeFileFS cwd f bytes) (g + 1) m
        refine ⟨cwd', ?_⟩
        rw [dlLoop_cons_fetch fetch u mfs f sum rest cwd g m bytes hexf hfetch]
        rw [hrec, hcf, hcm]
        have harith : g + 1 + countFetched fetch u mfs rest =
            g + (countFetched fetch u mfs rest + 1) := by omega
        rw [harith]
      | none =>
        have hsum := hsafe f sum (List.mem_cons_self _ _) hlook hfetch
        subst hsum
        have hcf : countFetched fetch u mfs ((f, "") :: rest) =
            countFetched fetch u mfs rest := by
          unfold countFetched
          rw [List.countP_cons]
          simp [hexf, hfetch]
        have hcm : countMissing fetch u mfs ((f, "") :: rest) =
            countMissing fetch u mfs rest + 1 := by
          unfold countMissing
          rw [List.countP_cons]
          simp [hexf, hfetch]
        obtain ⟨cwd', hrec⟩ := ih hsafe' cwd g (m + 1)
        refine ⟨cwd', ?_⟩
        rw [dlLoop_cons_miss fetch u mfs f rest cwd g m hexf hfetch]
        rw [hrec, hcf, hcm]
        have harith : m + 1 + countMissing fetch u mfs rest =
            m + (countMissing fetch u mfs rest + 1) := by omega
        rw [harith]

/-- Claim C3: during the download loop, a fetch failure on an entry whose
stored hash is non-empty aborts the whole operation at once with the
failing url and an unchanged working directory — the remaining rows are
never examined — both at the loop level and through downloadMissing when
such an entry heads the catalog; a fetch failure on an entry with an empty
stored hash only increments the still-missing counter and continues; and
when no fatal failure occurs the scan completes with the fetched and
still-missing tallies. -/
theorem downloadMissing_failure_policy (fetch : String → Option (List Nat))
    (u : String) :
    (∀ (deck : Deck) (f sum : String) (rest : List (String × String)),
      deck.mediaURL = some u → ¬ u = "" →
      deck.media.map (fun r => (r.filename, r.originalPath)) = (f, sum) :: rest →
      lookupFS deck.mfs f = none → fetch (u ++ f) = none → ¬ sum = "" →
      downloadMissing deck fetch = (DLResult.failed (u ++ f), deck)) ∧
    (∀ (mfs cwd : FS) (g m : Nat) (f sum : String) (rest : List (String × String)),
      lookupFS mfs f = none → fetch (u ++ f) = none → ¬ sum = "" →
      dlLoop fetch u mfs ((f, sum) :: rest) cwd g m =
        (DLResult.failed (u ++ f), cwd)) ∧
    (∀ (mfs cwd : FS) (g m : Nat) (f : String) (rest : List (String × String)),
      lookupFS mfs f = none → fetch (u ++ f) = none →
      dlLoop fetch u mfs ((f, "") :: rest) cwd g m =
        dlLoop fetch u mfs rest cwd g (m + 1)) ∧
    (∀ (mfs : FS) (rows : List (String × String)),
      (∀ f sum, (f, sum) ∈ rows → lookupFS mfs f = none →
        fetch (u ++ f) = none → sum = "") →
      ∀ (cwd : FS) (g m : Nat), ∃ cwd',
        dlLoop fetch u mfs rows cwd g m =
          (DLResult.ok (g + countFetched fetch u mfs rows)
            (m + countMissing fetch u mfs rows), cwd')) := by
  have hfatal : ∀ (mfs cwd : FS) (g m : Nat) (f sum : String)
      (rest : List (String × String)),
      lookupFS mfs f = none → fetch (u ++ f) = none → ¬ sum = "" →
      dlLoop fetch u mfs ((f, sum) :: rest) cwd g m =
        (DLResult.failed (u ++ f), cwd) := by
    intro mfs cwd g m f sum rest hlook hfetch hsum
    exact dlLoop_cons_fail fetch u mfs f sum rest cwd g m
      (fsExists_false_of_lookup_none mfs f hlook) hfetch hsum
  refine ⟨?_, hfatal, ?_, dlLoop_complete fetch u⟩
  · intro deck f sum rest hurl hu hrows hlook hfetch hsum
    simp only [downloadMissing, hurl]
    rw [if_neg hu, hrows]
    rw [hfatal deck.mfs deck.cwd 0 0 f sum rest hlook hfetch hsum]
    rw [← hurl]
  · intro mfs cwd g m f rest hlook hfetch
    exact dlLoop_cons_miss fetch u mfs f rest cwd g m
      (fsExists_false_of_lookup_none mfs f hlook) hfetch

/-- Claim C3, witness: a one-row catalog with a non-empty hash and a
failing fetch aborts with the url. -/
theorem downloadMissing_failure_policy_witness :
    dlLoop (fun _ => none) "u/" [] [("a", "h")] [] 0 0 =
      (DLResult.failed "u/a", []) :=
  (downloadMissing_failure_policy (fun _ => none) "u/").2.1 [] [] 0 0 "a" "h" []
    rfl rfl (by decide)

theorem lookupFS_write (fs : FS) (f : String) (bytes : List Nat) :
    lookupFS (writeFileFS fs f bytes) f = some (FSNode.file true bytes) := by
  unfold writeFileFS
  by_cases h : fs.any (fun e => e.1 = f) = true
  · rw [if_pos h]
    have key : ∀ (l : FS), l.any (fun e => e.1 = f) = true →
        lookupFS (l.map (fun e =>
          if e.1 = f then (f, FSNode.file true bytes) else e)) f =
          some (FSNode.file true bytes) := by
      intro l
      induction l with
      | nil => intro hh; simp at hh
      | cons e es ih =>
        intro hh
        rw [List.map_cons]
        by_cases he : e.1 = f
        · rw [if_pos he]
          unfold lookupFS
          rw [List.find?_cons_of_pos _ (by simp)]
          rfl
        · rw [if_neg he]
          unfold lookupFS
          rw [List.find?_cons_of_neg _ (by simp [he])]
          apply ih
          simp only [List.any_cons] at hh
          simp [he] at hh
          simp [hh]
    exact key fs h
  · rw [if_neg h]
    unfold lookupFS
    rw [List.find?_append]
    have hnone : fs.find? (fun e => e.1 = f) = none := by
      rw [List.find?_eq_none]
      intro e he
      simp only [decide_eq_true_eq]
      intro heq
      apply h
      rw [List.any_eq_true]
      exact ⟨e, he, by simp [heq]⟩
    rw [hnone]
    simp

/-- Claim C6: downloadMissing never writes to the media directory — its
resulting state keeps the media directory unchanged — and a successful
fetch of an absent catalog entry writes the downloaded bytes under the
bare filename in the current working directory while the media-directory
path of that filename is still absent afterwards, with the fetched counter
incremented. -/
theorem downloadMissing_writes_cwd (deck : Deck)
    (fetch : String → Option (List Nat)) :
    ((downloadMissing deck fetch).2.mfs = deck.mfs) ∧
    (∀ (u f sum : String) (bytes : List Nat),
      deck.mediaURL = some u → ¬ u = "" →
      deck.media.map (fun r => (r.filename, r.originalPath)) = [(f, sum)] →
      lookupFS deck.mfs f = none → fetch (u ++ f) = some bytes →
      downloadMissing deck fetch =
        (DLResult.ok 1 0, { deck with cwd := writeFileFS deck.cwd f bytes }) ∧
      lookupFS (downloadMissing deck fetch).2.mfs f = none ∧
      lookupFS (writeFileFS deck.cwd f bytes) f =
        some (FSNode.file true bytes)) := by
  constructor
  · cases hurl : deck.mediaURL with
    | none => simp only [downloadMissing, hurl]
    | some u =>
      by_cases hu : u = ""
      · simp only [downloadMissing, hurl]
        rw [if_pos hu]
      · simp only [downloadMissing, hurl]
        rw [if_neg hu]
  · intro u f sum bytes hurl hu hrows hlook hfetch
    have hrun : downloadMissing deck fetch =
        (DLResult.ok 1 0, { deck with cwd := writeFileFS deck.cwd f bytes }) := by
      simp only [downloadMissing, hurl]
      rw [if_neg hu, hrows]
      rw [dlLoop_cons_fetch fetch u deck.mfs f sum [] deck.cwd 0 0 bytes
        (fsExists_false_of_lookup_none deck.mfs f hlook) hfetch]
      rw [dlLoop_nil]
    refine ⟨hrun, ?_, lookupFS_write deck.cwd f bytes⟩
    rw [hrun]
    exact hlook

/-- Claim C6, witness: a concrete one-row catalog whose file is fetched
successfully lands in the working directory, not the media directory. -/
theorem downloadMissing_writes_cwd_witness :
    downloadMissing deckC6 (fun _ => some [9]) =
      (DLResult.ok 1 0, { deckC6 with cwd := writeFileFS deckC6.cwd "x.mp3" [9] }) ∧
    lookupFS (downloadMissing deckC6 (fun _ => some [9])).2.mfs "x.mp3" = none ∧
    lookupFS (writeFileFS deckC6.cwd "x.mp3" [9]) "x.mp3" =
      some (FSNode.file true [9]) :=
  (downloadMissing_writes_cwd deckC6 (fun _ => some [9])).2 "http://h/" "x.mp3" ""
    [9] rfl (by decide) rfl rfl rfl

/-- Claim C5, amended: when a catalog row with the source's exact content
hash already exists (with a non-empty filename), importFile returns that
row's base filename and changes nothing — no byte copy; but because
importFile never records the hash it computes, importing two identical
files with no such pre-existing row returns two different names and copies
two files (see the counterexample) — the same-name, one-copy behavior
needs a catalog entry with that hash before the second call, for instance
from an intervening rebuild. -/
theorem copyToMedia_dedupe_by_hash (deck : Deck) (path : String)
    (bytes : List Nat) (r : MediaRow)
    (hread : readFileFS deck.cwd path = some bytes)
    (hfind : deck.media.find? (fun q => q.originalPath = checksum bytes) = some r)
    (hne : ¬ r.filename = "") :
    copyToMedia deck path = Except.ok (basename r.filename, deck) := by
  simp only [copyToMedia, hread, hfind, Option.map]
  rw [if_neg hne]

/-- Claim C5, witness for the amended theorem: a catalog already holding
the content hash makes the import return the stored filename unchanged. -/
theorem copyToMedia_dedupe_by_hash_witness :
    copyToMedia deckC5b "s1/f.bin" = Except.ok (basename "have.bin", deckC5b) :=
  copyToMedia_dedupe_by_hash deckC5b "s1/f.bin" [7] ⟨1, "have.bin", 1, 0,
    checksum [7], ""⟩ rfl (by decide) (by decide)

/-- Claim C1: after a rebuild without purging on a collection whose records
reference a.mp3 twice and b.jpg once and whose media directory holds
exactly a.mp3, b.jpg and c.png, the unused list is exactly c.png, the
catalog row for a.mp3 ends with reference count two and the row for b.jpg
with reference count one (counts recomputed from zero over every record
and applied through the upsert). -/
theorem rebuild_scenario :
    (okView (rebuildMediaDir deckC1 false true 7)).map
      (fun x => (x.1, x.2.media.map (fun r => (r.filename, r.size)))) =
    some ((([] : List String), ["c.png"]),
      [("a.mp3", (2 : Int)), ("b.jpg", (1 : Int))]) := by
  decide

/-- Claim C7: extraction groups audio-rule matches before image-rule
matches, left to right within each rule; on the example text it yields
exactly foo.mp3 then bar.png. -/
theorem mediaFiles_order_example :
    mediaFiles c7input = ["foo.mp3", "bar.png"] := by
  decide

/-- Claim C2, counterexample: extracting from the result of stripping is
not always empty — deleting an audio tag can concatenate the surrounding
text into a new audio tag. -/
theorem strip_leaves_reference :
    ¬ (mediaFiles (stripMedia "[sou[sound:x]nd:y]") = []) := by
  decide

/-- Claim C4, counterexample: rebuild propagates an error when the media
directory holds an existing but unreadable file listed in the catalog —
the hash-refresh pass opens it without an exception handler. -/
theorem rebuild_error_on_unreadable :
    okView (rebuildMediaDir deckC4 false true 5) = none := by
  decide

/-- Claim C5, counterexample: importing two different source files with
identical byte content and an empty catalog returns two different
filenames and leaves two files in the media directory, because copyToMedia
never records the first import's hash in the catalog. -/
theorem copyToMedia_duplicate_content_two_files :
    twoImports deckC5 "s1/f.bin" "s2/f.bin" = some ("f.bin", "f (1).bin", 2) ∧
    ¬ ("f.bin" = "f (1).bin") := by
  constructor
  · decide
  · decide

end Anki
